import Mathlib

/-!
Verification development for the distributed transform-domain matvec engine
declared in `src/Matrix.hpp`.  The repository ships only the interface header;
every algorithm body (padding, frequency redistribution, the matvec pipelines,
construction and error handling) is modelled here from the design document,
faithful to its wording.  The spectral transform root of unity is kept as an
abstract parameter `z` of a star-field, so every definition stays computable
and the theorems hold for the exact (non floating point) semantics of the
pipeline.
-/

namespace Matvec

/-- Modelled from the spec: error taxonomy of section 7 — `InvalidDimension`,
`NotInitialized`, `DimensionMismatch`, `LayoutMismatch`, `TransformFailure`,
`CommunicationFailure`. -/
inductive MatError where
  | InvalidDimension
  | NotInitialized
  | DimensionMismatch
  | LayoutMismatch
  | TransformFailure
  | CommunicationFailure
deriving DecidableEq, Repr

/-- Modelled from the spec: the padding rule of the missing `PaddedLayout`
component (sections 3, 4.1, 9): the padded block size is at least double the
unpadded block size; the concrete documented choice here is exactly double. -/
def paddedSize (b : ℕ) : ℕ := 2 * b

/-- Modelled from the spec: `pad(unpadded) -> padded` of the missing
`PaddedLayout` component — zero-fills the extension region beyond the
unpadded block. -/
def pad {R : Type} [Zero R] (b N : ℕ) (v : Fin b → R) : ZMod N → R :=
  fun g => if h : g.val < b then v ⟨g.val, h⟩ else 0

/-- Modelled from the spec: `unpad(padded) -> unpadded` of the missing
`PaddedLayout` component — truncates, discarding the extension region. -/
def unpad {R : Type} (b N : ℕ) (w : ZMod N → R) : Fin b → R :=
  fun j => w ((j.val : ZMod N))

/-- Modelled from the spec: the missing `FrequencyRedistributor` forward
re-layout (section 4.2) — an all-to-all style transpose of a flat complex
buffer distributed over `P` peers with `q` entries each: the element at flat
position `i*q + j` of the column-owned layout moves to flat position
`j*P + i` of the row-owned layout.  Pure data movement, no arithmetic. -/
def redistributeForward {α : Type} (P q : ℕ) (buf : Fin (P * q) → α) :
    Fin (q * P) → α :=
  fun k => buf ⟨(k.val % P) * q + k.val / P, by
    have hk := k.isLt
    have hP : 0 < P := by
      rcases Nat.eq_zero_or_pos P with h | h
      · subst h; simp at hk
      · exact h
    have h2 : k.val / P < q :=
      Nat.div_lt_of_lt_mul (Nat.lt_of_lt_of_le hk (le_of_eq (mul_comm q P)))
    calc (k.val % P) * q + k.val / P < (k.val % P) * q + q := by omega
      _ = (k.val % P + 1) * q := by ring
      _ ≤ P * q := Nat.mul_le_mul_right _ (by
          have := Nat.mod_lt k.val hP
          omega)⟩

/-- Modelled from the spec: the missing `FrequencyRedistributor` backward
re-layout (section 4.2) — the roles-swapped inverse exchange, moving the
element at flat position `j*P + i` of the row-owned layout back to flat
position `i*q + j` of the column-owned layout. -/
def redistributeBackward {α : Type} (P q : ℕ) (buf : Fin (q * P) → α) :
    Fin (P * q) → α :=
  fun k => buf ⟨(k.val % q) * P + k.val / q, by
    have hk := k.isLt
    have hq : 0 < q := by
      rcases Nat.eq_zero_or_pos q with h | h
      · subst h; simp at hk
      · exact h
    have h2 : k.val / q < P :=
      Nat.div_lt_of_lt_mul (Nat.lt_of_lt_of_le hk (le_of_eq (mul_comm P q)))
    calc (k.val % q) * P + k.val / q < (k.val % q) * P + P := by omega
      _ = (k.val % q + 1) * P := by ring
      _ ≤ q * P := Nat.mul_le_mul_right _ (by
          have := Nat.mod_lt k.val hq
          omega)⟩

/-- Modelled from the spec: the exponential basis of the missing
`TransformEngine` collaborator — `ew N z g` is the `g`-th power of the
transform root `z` (for the target engine, `z = exp(-2*pi*i/N)`); it is kept
abstract so the pipeline's algebra is exact. -/
def ew {R : Type} [Field R] (N : ℕ) (z : R) (g : ZMod N) : R := z ^ g.val

section PipelineDefs

variable {R : Type} [Field R]

/-- Modelled from the spec: the forward transform plan of the missing
implementation (`Matrix::forward_plan`, executed through the external
`TransformEngine`): the discrete spectral analysis sum with exponent `-f*k`. -/
def forward_plan (N : ℕ) [NeZero N] (z : R) (w : ZMod N → R) : ZMod N → R :=
  fun f => ∑ k, w k * ew N z (-(f * k))

/-- Modelled from the spec: the inverse transform plan before its conventional
normalization — the synthesis sum with exponent `j*f`. -/
def inverse_plan_raw (N : ℕ) [NeZero N] (z : R) (w : ZMod N → R) :
    ZMod N → R :=
  fun j => ∑ f, w f * ew N z (j * f)

/-- Modelled from the spec: the inverse transform plan
(`Matrix::inverse_plan`), including the conventional division by the total
transform length. -/
def inverse_plan (N : ℕ) [NeZero N] (z : R) (w : ZMod N → R) : ZMod N → R :=
  fun j => (N : R)⁻¹ * inverse_plan_raw N z w j

/-- Modelled from the spec: the conjugate forward transform plan
(`Matrix::forward_plan_conj`) — exponent signs mirrored. -/
def forward_plan_conj (N : ℕ) [NeZero N] (z : R) (w : ZMod N → R) :
    ZMod N → R :=
  fun f => ∑ k, w k * ew N z (f * k)

/-- Modelled from the spec: the conjugate inverse transform plan before
normalization. -/
def inverse_plan_conj_raw (N : ℕ) [NeZero N] (z : R) (w : ZMod N → R) :
    ZMod N → R :=
  fun j => ∑ f, w f * ew N z (-(j * f))

/-- Modelled from the spec: the conjugate inverse transform plan
(`Matrix::inverse_plan_conj`), including the conventional normalization. -/
def inverse_plan_conj (N : ℕ) [NeZero N] (z : R) (w : ZMod N → R) :
    ZMod N → R :=
  fun j => (N : R)⁻¹ * inverse_plan_conj_raw N z w j

/-- Modelled from the spec (section 4.4): one unnormalized leg of `matvec` —
pad, forward transform, pointwise multiply by the frequency coefficients `m`,
inverse transform without the normalization factor, unpad.  (This is the
single-process instance, where the two frequency redistributions around the
pointwise multiply are the identity re-layout.) -/
def matvec_raw (N b : ℕ) [NeZero N] (z : R) (m : ZMod N → R)
    (x : Fin b → R) : Fin b → R :=
  unpad b N (inverse_plan_raw N z (fun f => m f * forward_plan N z (pad b N x) f))

/-- Modelled from the spec (section 4.5): one unnormalized conjugate-transpose
leg — same pipeline through the conjugate plans, with coefficient buffer
`mc` (`mat_freq_tosi_other` when the operator is non-symmetric, otherwise
`mat_freq_tosi`). -/
def transpose_matvec_raw (N b : ℕ) [NeZero N] (z : R) (mc : ZMod N → R)
    (x : Fin b → R) : Fin b → R :=
  unpad b N
    (inverse_plan_conj_raw N z (fun f => mc f * forward_plan_conj N z (pad b N x) f))

/-- Modelled from the spec (section 4.4): the `full = false` `matvec`
pipeline, normalized once for its single forward/inverse round trip. -/
def matvec_single (N b : ℕ) [NeZero N] (z : R) (m : ZMod N → R)
    (x : Fin b → R) : Fin b → R :=
  unpad b N (inverse_plan N z (fun f => m f * forward_plan N z (pad b N x) f))

/-- Modelled from the spec (section 4.5): the `full = false`
`transpose_matvec` pipeline, through the conjugate plans. -/
def transpose_matvec_single (N b : ℕ) [NeZero N] (z : R) (mc : ZMod N → R)
    (x : Fin b → R) : Fin b → R :=
  unpad b N
    (inverse_plan_conj N z (fun f => mc f * forward_plan_conj N z (pad b N x) f))

/-- Modelled from the spec (sections 4.4 and 4.5, numeric semantics): the
`full = true` `matvec` pipeline — the forward leg is run, its intermediate
time-domain result feeds the conjugate-transpose leg, and the conventional
normalization (one factor of `1/N` per forward/inverse round trip, two round
trips in total) is applied exactly once, at the very end. -/
def matvec_full (N b : ℕ) [NeZero N] (z : R) (m mc : ZMod N → R)
    (x : Fin b → R) : Fin b → R :=
  fun j => ((N : R) * (N : R))⁻¹ *
    transpose_matvec_raw N b z mc (matvec_raw N b z m x) j

/-- Modelled from the spec (section 4.5): the `full = true`
`transpose_matvec` pipeline — conjugate-transpose leg first, then the forward
leg, normalized once at the very end. -/
def transpose_matvec_full (N b : ℕ) [NeZero N] (z : R) (m mc : ZMod N → R)
    (x : Fin b → R) : Fin b → R :=
  fun j => ((N : R) * (N : R))⁻¹ *
    matvec_raw N b z m (transpose_matvec_raw N b z mc x) j

/-- Application of an explicit `b × b` matrix of scalars to a vector. -/
def applyMat {b : ℕ} (A : Fin b → Fin b → R) (x : Fin b → R) : Fin b → R :=
  fun j => ∑ k, A j k * x k

/-- Product of two explicit `b × b` matrices of scalars. -/
def matMul {b : ℕ} (A B : Fin b → Fin b → R) : Fin b → Fin b → R :=
  fun j k => ∑ l, A j l * B l k

/-- The unnormalized kernel matrix realized by one forward `matvec` leg. -/
def kernelMat (N b : ℕ) [NeZero N] (z : R) (m : ZMod N → R) :
    Fin b → Fin b → R :=
  fun j k => ∑ f,
    m f * (ew N z (-(f * (k.val : ZMod N))) * ew N z ((j.val : ZMod N) * f))

/-- The unnormalized kernel matrix realized by one conjugate-transpose leg. -/
def kernelMatC (N b : ℕ) [NeZero N] (z : R) (mc : ZMod N → R) :
    Fin b → Fin b → R :=
  fun j k => ∑ f,
    mc f * (ew N z (f * (k.val : ZMod N)) * ew N z (-((j.val : ZMod N) * f)))

/-- The structured operator represented by the frequency coefficients `m`:
a Toeplitz-style matrix whose `(j,k)` entry is the normalized symbol sum over
all frequencies at lag `j - k`. -/
def opMatrix (N b : ℕ) [NeZero N] (z : R) (m : ZMod N → R) :
    Fin b → Fin b → R :=
  fun j k => (N : R)⁻¹ *
    ∑ f, m f * ew N z (((j.val : ZMod N) - (k.val : ZMod N)) * f)

end PipelineDefs

/-- The conjugate transpose of an explicit matrix of scalars. -/
def conjTransposeMat {S : Type} [Star S] {b : ℕ} (A : Fin b → Fin b → S) :
    Fin b → Fin b → S :=
  fun j k => star (A k j)

/-- State of one per-process `Matrix` instance, with the fields declared in
`src/Matrix.hpp`.  The frequency buffers are modelled as total functions; the
optional second coefficient buffer `mat_freq_tosi_other` is an `Option`
(absent = the C++ null pointer), and the four transform plans and the working
buffers are modelled by flags recording whether they have been built.  The
field defaults mirror the in-class initializers of the header
(`mat_freq_tosi_other = nullptr`, `initialized = false`,
`has_mat_freq_tosi_other = false`); the transform root `z` stands for the
external engine's twiddle factor. -/
structure MatrixState (R : Type) where
  padded_size : ℕ
  block_size : ℕ
  num_cols : ℕ
  num_rows : ℕ
  glob_num_cols : ℕ
  glob_num_rows : ℕ
  z : R
  mat_freq_tosi : ZMod padded_size → R
  mat_freq_tosi_other : Option (ZMod padded_size → R) := none
  forward_plan_built : Bool := false
  inverse_plan_built : Bool := false
  forward_plan_conj_built : Bool := false
  inverse_plan_conj_built : Bool := false
  buffers_allocated : Bool := false
  initialized : Bool := false
  has_mat_freq_tosi_other : Bool := false

namespace MatrixState

variable {R : Type}

/-- Modelled from the spec (section 4.3): the single internal
`Matrix::initialize` operation shared by both construction paths, for one
process (the local and global extents coincide).  Non-positive sizes abort
construction with `InvalidDimension`; otherwise all working buffers are
allocated, the four transform plans are built, the coefficient buffer starts
zeroed, and only then does `initialized` become true. -/
def construct [Zero R] (z : R) (cols rows bs : ℕ) (g : Bool) :
    Except MatError (MatrixState R) :=
  if bs = 0 ∨ cols = 0 ∨ rows = 0 then .error .InvalidDimension
  else .ok
    { padded_size := paddedSize bs
      block_size := bs
      num_cols := cols
      num_rows := rows
      glob_num_cols := cols
      glob_num_rows := rows
      z := z
      mat_freq_tosi := fun _ => 0
      mat_freq_tosi_other := none
      forward_plan_built := true
      inverse_plan_built := true
      forward_plan_conj_built := true
      inverse_plan_conj_built := true
      buffers_allocated := true
      initialized := true
      has_mat_freq_tosi_other := false }

/-- Modelled from the spec: `Matrix::init_mat_ones` — populate the frequency
coefficients with ones; fails fast with `NotInitialized` before successful
construction. -/
def init_mat_ones [One R] (M : MatrixState R) :
    Except MatError (MatrixState R) :=
  if M.initialized then .ok { M with mat_freq_tosi := fun _ => 1 }
  else .error .NotInitialized

/-- Modelled from the spec: `Matrix::init_mat_from_file` — populate the
coefficient buffer (and, when the loaded operator is non-symmetric, the
second buffer together with its presence flag) from data read by the external
`Loader`; the loaded shards are passed in as arguments.  Fails fast with
`NotInitialized` before successful construction. -/
def init_mat_from_file (M : MatrixState R) (c : ZMod M.padded_size → R)
    (o : Option (ZMod M.padded_size → R)) : Except MatError (MatrixState R) :=
  if M.initialized then
    .ok { M with mat_freq_tosi := c, mat_freq_tosi_other := o,
                 has_mat_freq_tosi_other := o.isSome }
  else .error .NotInitialized

/-- Modelled from the spec (section 4.4): the checked `Matrix::matvec` entry
point.  It fails fast with `NotInitialized` before construction and with
`DimensionMismatch` when the caller's input or output vector size disagrees
with the configured block size, and otherwise runs the padded
transform-domain pipeline, returning the new contents of `y`. -/
def matvec [Field R] (M : MatrixState R) (x y : List R) (full : Bool) :
    Except MatError (List R) :=
  if M.initialized = false then .error .NotInitialized
  else if hx : x.length = M.block_size then
    if y.length = M.block_size then
      if hN : M.padded_size = 0 then .error .InvalidDimension
      else
        haveI : NeZero M.padded_size := ⟨hN⟩
        let v : Fin M.block_size → R := fun i => x.get (Fin.cast hx.symm i)
        if full then
          .ok (List.ofFn (matvec_full M.padded_size M.block_size M.z
            M.mat_freq_tosi (M.mat_freq_tosi_other.getD M.mat_freq_tosi) v))
        else
          .ok (List.ofFn (matvec_single M.padded_size M.block_size M.z
            M.mat_freq_tosi v))
    else .error .DimensionMismatch
  else .error .DimensionMismatch

/-- Modelled from the spec (section 4.5): the checked
`Matrix::transpose_matvec` entry point — mirror of `matvec` through the
conjugate plans, using the alternate coefficient buffer when the operator is
non-symmetric (`mat_freq_tosi` otherwise). -/
def transpose_matvec [Field R] (M : MatrixState R) (x y : List R)
    (full : Bool) : Except MatError (List R) :=
  if M.initialized = false then .error .NotInitialized
  else if hx : x.length = M.block_size then
    if y.length = M.block_size then
      if hN : M.padded_size = 0 then .error .InvalidDimension
      else
        haveI : NeZero M.padded_size := ⟨hN⟩
        let v : Fin M.block_size → R := fun i => x.get (Fin.cast hx.symm i)
        if full then
          .ok (List.ofFn (transpose_matvec_full M.padded_size M.block_size M.z
            M.mat_freq_tosi (M.mat_freq_tosi_other.getD M.mat_freq_tosi) v))
        else
          .ok (List.ofFn (transpose_matvec_single M.padded_size M.block_size
            M.z (M.mat_freq_tosi_other.getD M.mat_freq_tosi) v))
    else .error .DimensionMismatch
  else .error .DimensionMismatch

/-- Getter `Matrix::is_initialized`. -/
def is_initialized (M : MatrixState R) : Bool := M.initialized

/-- Getter `Matrix::get_has_mat_freq_tosi_other`. -/
def get_has_mat_freq_tosi_other (M : MatrixState R) : Bool :=
  M.has_mat_freq_tosi_other

/-- Getter `Matrix::get_mat_freq_tosi_other` (the possibly-null pointer). -/
def get_mat_freq_tosi_other (M : MatrixState R) :
    Option (ZMod M.padded_size → R) := M.mat_freq_tosi_other

/-- Getter `Matrix::get_padded_size`. -/
def get_padded_size (M : MatrixState R) : ℕ := M.padded_size

/-- Getter `Matrix::get_block_size`. -/
def get_block_size (M : MatrixState R) : ℕ := M.block_size

/-- The states observable through the public interface: obtained by one of
the two construction paths and any sequence of coefficient-population
operations. -/
inductive Reachable [Field R] : MatrixState R → Prop where
  | construct : ∀ (z : R) (cols rows bs : ℕ) (g : Bool) (M : MatrixState R),
      MatrixState.construct z cols rows bs g = .ok M → Reachable M
  | ones : ∀ (M M2 : MatrixState R),
      Reachable M → M.init_mat_ones = .ok M2 → Reachable M2
  | from_file : ∀ (M : MatrixState R) (c : ZMod M.padded_size → R)
      (o : Option (ZMod M.padded_size → R)) (M2 : MatrixState R),
      Reachable M → M.init_mat_from_file c o = .ok M2 → Reachable M2

end MatrixState

/-- A concrete initialized instance over `ℂ` (padded size 2, block size 1,
transform root `-1`, coefficients identically one), used to exhibit the
claim theorems at a concrete input. -/
def sampleMatrix : MatrixState ℂ :=
  { padded_size := 2
    block_size := 1
    num_cols := 1
    num_rows := 1
    glob_num_cols := 1
    glob_num_rows := 1
    z := -1
    mat_freq_tosi := fun _ => 1
    mat_freq_tosi_other := none
    forward_plan_built := true
    inverse_plan_built := true
    forward_plan_conj_built := true
    inverse_plan_conj_built := true
    buffers_allocated := true
    initialized := true
    has_mat_freq_tosi_other := false }

/-- A concrete never-initialized instance over `ℂ` (all defaults false),
used to exhibit the fail-fast behaviour at a concrete input. -/
def sampleUninit : MatrixState ℂ :=
  { padded_size := 2
    block_size := 1
    num_cols := 1
    num_rows := 1
    glob_num_cols := 1
    glob_num_rows := 1
    z := -1
    mat_freq_tosi := fun _ => 1 }

/-- The state produced by the synthetic construction path with extents 1,
block size 1 and transform root `-1` over `ℂ`, before coefficient
population; `sampleMatrix` is reached from it by `init_mat_ones`. -/
def sampleConstructed : MatrixState ℂ :=
  { padded_size := 2
    block_size := 1
    num_cols := 1
    num_rows := 1
    glob_num_cols := 1
    glob_num_rows := 1
    z := -1
    mat_freq_tosi := fun _ => 0
    mat_freq_tosi_other := none
    forward_plan_built := true
    inverse_plan_built := true
    forward_plan_conj_built := true
    inverse_plan_conj_built := true
    buffers_allocated := true
    initialized := true
    has_mat_freq_tosi_other := false }

theorem unpad_pad {R : Type} [Zero R] (b N : ℕ) [NeZero N] (hb : b ≤ N)
    (v : Fin b → R) : unpad b N (pad b N v) = v := by
  funext j
  have hj : j.val < N := lt_of_lt_of_le j.isLt hb
  have hv : ((j.val : ZMod N)).val = j.val := ZMod.val_cast_of_lt hj
  simp only [unpad, pad, hv, j.isLt, dif_pos]

theorem flatTranspose_cancel {a b k : ℕ} (hb : 0 < b) (hdiv : k / b < a) :
    ((k % b) * a + k / b) % a * b + ((k % b) * a + k / b) / a = k := by
  have e1 : ((k % b) * a + k / b) % a = k / b := by
    rw [mul_comm (k % b) a, Nat.mul_add_mod, Nat.mod_eq_of_lt hdiv]
  have e2 : ((k % b) * a + k / b) / a = k % b := by
    have ha : 0 < a := Nat.lt_of_le_of_lt (Nat.zero_le _) hdiv
    rw [mul_comm (k % b) a, Nat.mul_add_div ha, Nat.div_eq_of_lt hdiv,
      Nat.add_zero]
  rw [e1, e2, mul_comm (k / b) b, Nat.div_add_mod]

theorem redistribute_round_trip {α : Type} (P q : ℕ) (buf : Fin (P * q) → α) :
    redistributeBackward P q (redistributeForward P q buf) = buf := by
  funext k
  have hk := k.isLt
  have hq : 0 < q := by
    rcases Nat.eq_zero_or_pos q with h | h
    · subst h; simp at hk
    · exact h
  have hdiv : k.val / q < P :=
    Nat.div_lt_of_lt_mul (Nat.lt_of_lt_of_le hk (le_of_eq (mul_comm P q)))
  simp only [redistributeBackward, redistributeForward]
  congr 1
  exact Fin.ext (flatTranspose_cancel hq hdiv)

theorem redistribute_round_trip_rev {α : Type} (P q : ℕ)
    (buf : Fin (q * P) → α) :
    redistributeForward P q (redistributeBackward P q buf) = buf := by
  funext k
  have hk := k.isLt
  have hP : 0 < P := by
    rcases Nat.eq_zero_or_pos P with h | h
    · subst h; simp at hk
    · exact h
  have hdiv : k.val / P < q :=
    Nat.div_lt_of_lt_mul (Nat.lt_of_lt_of_le hk (le_of_eq (mul_comm q P)))
  simp only [redistributeForward, redistributeBackward]
  congr 1
  exact Fin.ext (flatTranspose_cancel hP hdiv)

section TransformLemmas

variable {R : Type} [Field R]

theorem pow_val_mod (N : ℕ) (z : R) (hz : z ^ N = 1) (x : ℕ) :
    z ^ (x % N) = z ^ x := by
  conv_rhs => rw [← Nat.div_add_mod x N]
  rw [pow_add, pow_mul, hz, one_pow, one_mul]

theorem ew_add (N : ℕ) [NeZero N] (z : R) (hz : z ^ N = 1) (a b : ZMod N) :
    ew N z (a + b) = ew N z a * ew N z b := by
  unfold ew
  rw [ZMod.val_add, pow_val_mod N z hz, pow_add]

theorem ew_zero (N : ℕ) [NeZero N] (z : R) : ew N z 0 = 1 := by
  unfold ew
  rw [ZMod.val_zero, pow_zero]

theorem ew_neg (N : ℕ) [NeZero N] (z : R) (hz : z ^ N = 1) (a : ZMod N) :
    ew N z (-a) = (ew N z a)⁻¹ := by
  have h : ew N z a * ew N z (-a) = 1 := by
    rw [← ew_add N z hz, add_neg_cancel, ew_zero]
  exact eq_inv_of_mul_eq_one_right h

theorem sum_pad (b N : ℕ) [NeZero N] (hb : b ≤ N) (v : Fin b → R)
    (c : ZMod N → R) :
    ∑ g, pad b N v g * c g = ∑ k : Fin b, v k * c ((k.val : ZMod N)) := by
  classical
  have hval : ∀ k : Fin b, ((k.val : ZMod N)).val = k.val := fun k =>
    ZMod.val_cast_of_lt (lt_of_lt_of_le k.isLt hb)
  have hinj : ∀ k1 ∈ (Finset.univ : Finset (Fin b)), ∀ k2 ∈ Finset.univ,
      ((k1.val : ZMod N)) = ((k2.val : ZMod N)) → k1 = k2 := by
    intro k1 _ k2 _ h
    have h1 : ((k1.val : ZMod N)).val = ((k2.val : ZMod N)).val := by rw [h]
    rw [hval k1, hval k2] at h1
    exact Fin.ext h1
  have himg := Finset.sum_image (s := (Finset.univ : Finset (Fin b)))
    (g := fun k : Fin b => ((k.val : ZMod N)))
    (f := fun g : ZMod N => pad b N v g * c g) hinj
  have hsub : ∑ g ∈ Finset.univ.image (fun k : Fin b => ((k.val : ZMod N))),
      pad b N v g * c g = ∑ g, pad b N v g * c g := by
    apply Finset.sum_subset (Finset.subset_univ _)
    intro g _ hg
    have hgb : ¬ g.val < b := by
      intro hlt
      apply hg
      apply Finset.mem_image.mpr
      exact ⟨⟨g.val, hlt⟩, Finset.mem_univ _, ZMod.natCast_rightInverse g⟩
    simp [pad, hgb]
  rw [← hsub, himg]
  apply Finset.sum_congr rfl
  intro k _
  simp [pad, hval k]

theorem matvec_raw_applyMat (N b : ℕ) [NeZero N] (z : R) (hb : b ≤ N)
    (m : ZMod N → R) (x : Fin b → R) :
    matvec_raw N b z m x = applyMat (kernelMat N b z m) x := by
  funext j
  simp only [matvec_raw, inverse_plan_raw, forward_plan, unpad, applyMat,
    kernelMat]
  calc ∑ f, (m f * ∑ g, pad b N x g * ew N z (-(f * g))) *
        ew N z ((j.val : ZMod N) * f)
      = ∑ f, ∑ k : Fin b,
          m f * (ew N z (-(f * (k.val : ZMod N))) *
            ew N z ((j.val : ZMod N) * f)) * x k := by
        apply Finset.sum_congr rfl
        intro f _
        rw [sum_pad b N hb x (fun g => ew N z (-(f * g))), Finset.mul_sum,
          Finset.sum_mul]
        apply Finset.sum_congr rfl
        intro k _
        ring
    _ = ∑ k : Fin b, ∑ f,
          m f * (ew N z (-(f * (k.val : ZMod N))) *
            ew N z ((j.val : ZMod N) * f)) * x k := Finset.sum_comm
    _ = ∑ k : Fin b, (∑ f,
          m f * (ew N z (-(f * (k.val : ZMod N))) *
            ew N z ((j.val : ZMod N) * f))) * x k := by
        apply Finset.sum_congr rfl
        intro k _
        rw [Finset.sum_mul]

theorem transpose_matvec_raw_applyMat (N b : ℕ) [NeZero N] (z : R)
    (hb : b ≤ N) (mc : ZMod N → R) (x : Fin b → R) :
    transpose_matvec_raw N b z mc x = applyMat (kernelMatC N b z mc) x := by
  funext j
  simp only [transpose_matvec_raw, inverse_plan_conj_raw, forward_plan_conj,
    unpad, applyMat, kernelMatC]
  calc ∑ f, (mc f * ∑ g, pad b N x g * ew N z (f * g)) *
        ew N z (-((j.val : ZMod N) * f))
      = ∑ f, ∑ k : Fin b,
          mc f * (ew N z (f * (k.val : ZMod N)) *
            ew N z (-((j.val : ZMod N) * f))) * x k := by
        apply Finset.sum_congr rfl
        intro f _
        rw [sum_pad b N hb x (fun g => ew N z (f * g)), Finset.mul_sum,
          Finset.sum_mul]
        apply Finset.sum_congr rfl
        intro k _
        ring
    _ = ∑ k : Fin b, ∑ f,
          mc f * (ew N z (f * (k.val : ZMod N)) *
            ew N z (-((j.val : ZMod N) * f))) * x k := Finset.sum_comm
    _ = ∑ k : Fin b, (∑ f,
          mc f * (ew N z (f * (k.val : ZMod N)) *
            ew N z (-((j.val : ZMod N) * f)))) * x k := by
        apply Finset.sum_congr rfl
        intro k _
        rw [Finset.sum_mul]

theorem applyMat_smul {b : ℕ} (A : Fin b → Fin b → R) (c : R)
    (x : Fin b → R) :
    applyMat A (fun i => c * x i) = fun j => c * applyMat A x j := by
  funext j
  simp only [applyMat, Finset.mul_sum]
  apply Finset.sum_congr rfl
  intro k _
  ring

theorem applyMat_linear {b : ℕ} (A : Fin b → Fin b → R) (a c : R)
    (x1 x2 : Fin b → R) :
    applyMat A (fun i => a * x1 i + c * x2 i) =
      fun j => a * applyMat A x1 j + c * applyMat A x2 j := by
  funext j
  simp only [applyMat, Finset.mul_sum, ← Finset.sum_add_distrib]
  apply Finset.sum_congr rfl
  intro k _
  ring

theorem applyMat_comp {b : ℕ} (A B : Fin b → Fin b → R) (x : Fin b → R) :
    applyMat A (applyMat B x) = applyMat (matMul A B) x := by
  funext j
  simp only [applyMat, matMul, Finset.mul_sum, Finset.sum_mul]
  rw [Finset.sum_comm]
  apply Finset.sum_congr rfl
  intro k _
  apply Finset.sum_congr rfl
  intro l _
  ring

theorem matvec_single_raw (N b : ℕ) [NeZero N] (z : R) (m : ZMod N → R)
    (x : Fin b → R) :
    matvec_single N b z m x = fun j => (N : R)⁻¹ * matvec_raw N b z m x j :=
  rfl

theorem transpose_matvec_single_raw (N b : ℕ) [NeZero N] (z : R)
    (mc : ZMod N → R) (x : Fin b → R) :
    transpose_matvec_single N b z mc x =
      fun j => (N : R)⁻¹ * transpose_matvec_raw N b z mc x j :=
  rfl

theorem kernelMat_opMatrix (N b : ℕ) [NeZero N] (z : R) (hz : z ^ N = 1)
    (m : ZMod N → R) (j k : Fin b) :
    (N : R)⁻¹ * kernelMat N b z m j k = opMatrix N b z m j k := by
  simp only [kernelMat, opMatrix]
  congr 1
  apply Finset.sum_congr rfl
  intro f _
  have harg : ((j.val : ZMod N) - (k.val : ZMod N)) * f =
      (j.val : ZMod N) * f + -(f * (k.val : ZMod N)) := by ring
  rw [harg, ew_add N z hz]
  ring

theorem matvec_single_applyMat (N b : ℕ) [NeZero N] (z : R) (hz : z ^ N = 1)
    (hb : b ≤ N) (m : ZMod N → R) (x : Fin b → R) :
    matvec_single N b z m x = applyMat (opMatrix N b z m) x := by
  funext j
  rw [matvec_single_raw, matvec_raw_applyMat N b z hb]
  simp only [applyMat, Finset.mul_sum]
  apply Finset.sum_congr rfl
  intro k _
  rw [← mul_assoc, kernelMat_opMatrix N b z hz]

theorem matvec_full_chain (N b : ℕ) [NeZero N] (z : R) (hb : b ≤ N)
    (m mc : ZMod N → R) (x : Fin b → R) :
    matvec_full N b z m mc x =
      transpose_matvec_single N b z mc (matvec_single N b z m x) := by
  have hKC := transpose_matvec_raw_applyMat N b z hb mc
  have hK := matvec_raw_applyMat N b z hb m x
  funext j
  rw [transpose_matvec_single_raw, matvec_single_raw, hKC, applyMat_smul, hK]
  simp only [matvec_full]
  rw [hKC, hK, mul_inv]
  ring

theorem transpose_matvec_full_chain (N b : ℕ) [NeZero N] (z : R) (hb : b ≤ N)
    (m mc : ZMod N → R) (x : Fin b → R) :
    transpose_matvec_full N b z m mc x =
      matvec_single N b z m (transpose_matvec_single N b z mc x) := by
  have hKC := transpose_matvec_raw_applyMat N b z hb mc x
  have hK := matvec_raw_applyMat N b z hb m
  funext j
  rw [matvec_single_raw, transpose_matvec_single_raw, hK, applyMat_smul, hKC]
  simp only [transpose_matvec_full]
  rw [hK, hKC, mul_inv]
  ring

end TransformLemmas

section StarLemmas

variable {R : Type} [Field R] [StarRing R]

theorem ew_star (N : ℕ) [NeZero N] (z : R) (hsz : star z * z = 1)
    (a : ZMod N) : star (ew N z a) = (ew N z a)⁻¹ := by
  unfold ew
  rw [star_pow]
  have h : star z ^ a.val * z ^ a.val = 1 := by
    rw [← mul_pow, hsz, one_pow]
  exact eq_inv_of_mul_eq_one_left h

theorem ew_star_neg (N : ℕ) [NeZero N] (z : R) (hz : z ^ N = 1)
    (hsz : star z * z = 1) (a : ZMod N) : star (ew N z a) = ew N z (-a) := by
  rw [ew_star N z hsz, ew_neg N z hz]

theorem kernelMatC_star (N b : ℕ) [NeZero N] (z : R) (hz : z ^ N = 1)
    (hsz : star z * z = 1) (m mc : ZMod N → R)
    (hmc : ∀ g, mc g = star (m (-g))) (j k : Fin b) :
    (N : R)⁻¹ * kernelMatC N b z mc j k = star (opMatrix N b z m k j) := by
  have hsum : ∑ f, mc f * (ew N z (f * (k.val : ZMod N)) *
        ew N z (-((j.val : ZMod N) * f))) =
      ∑ f, star (m f *
        ew N z (((k.val : ZMod N) - (j.val : ZMod N)) * f)) := by
    apply Fintype.sum_equiv (Equiv.neg (ZMod N))
    intro x
    simp only [Equiv.neg_apply]
    rw [star_mul', ← hmc x, ew_star_neg N z hz hsz, ← ew_add N z hz]
    congr 1
    ring
  simp only [kernelMatC, opMatrix]
  rw [star_mul', star_inv₀, star_natCast, star_sum]
  rw [hsum]

theorem transpose_matvec_single_applyMat (N b : ℕ) [NeZero N] (z : R)
    (hz : z ^ N = 1) (hsz : star z * z = 1) (hb : b ≤ N) (m mc : ZMod N → R)
    (hmc : ∀ g, mc g = star (m (-g))) (x : Fin b → R) :
    transpose_matvec_single N b z mc x =
      applyMat (conjTransposeMat (opMatrix N b z m)) x := by
  funext j
  rw [transpose_matvec_single_raw, transpose_matvec_raw_applyMat N b z hb]
  simp only [applyMat, conjTransposeMat, Finset.mul_sum]
  apply Finset.sum_congr rfl
  intro k _
  rw [← mul_assoc, kernelMatC_star N b z hz hsz m mc hmc]

end StarLemmas

section StateLemmas

variable {R : Type} [Field R]

theorem reachable_invariant (M : MatrixState R) (h : MatrixState.Reachable M) :
    M.initialized = true ∧ M.forward_plan_built = true ∧
    M.inverse_plan_built = true ∧ M.forward_plan_conj_built = true ∧
    M.inverse_plan_conj_built = true ∧ M.buffers_allocated = true ∧
    0 < M.block_size ∧ M.padded_size = paddedSize M.block_size ∧
    M.has_mat_freq_tosi_other = M.mat_freq_tosi_other.isSome := by
  induction h with
  | construct z cols rows bs g M hok =>
    unfold MatrixState.construct at hok
    split at hok
    · exact Except.noConfusion hok
    · rename_i hcond
      injection hok with h2
      subst h2
      push_neg at hcond
      refine ⟨rfl, rfl, rfl, rfl, rfl, rfl, ?_, rfl, rfl⟩
      exact Nat.pos_of_ne_zero hcond.1
  | ones M M2 _ hok ih =>
    unfold MatrixState.init_mat_ones at hok
    split at hok
    · injection hok with h2
      subst h2
      exact ih
    · exact Except.noConfusion hok
  | from_file M c o M2 _ hok ih =>
    unfold MatrixState.init_mat_from_file at hok
    split at hok
    · injection hok with h2
      subst h2
      exact ⟨ih.1, ih.2.1, ih.2.2.1, ih.2.2.2.1, ih.2.2.2.2.1, ih.2.2.2.2.2.1,
        ih.2.2.2.2.2.2.1, ih.2.2.2.2.2.2.2.1, rfl⟩
    · exact Except.noConfusion hok

theorem matvec_ok_false (M : MatrixState R) (hinit : M.initialized = true)
    (hN : M.padded_size ≠ 0) (x y : List R) (hx : x.length = M.block_size)
    (hy : y.length = M.block_size) :
    M.matvec x y false =
      letI : NeZero M.padded_size := ⟨hN⟩
      .ok (List.ofFn (matvec_single M.padded_size M.block_size M.z
        M.mat_freq_tosi (fun i => x.get (Fin.cast hx.symm i)))) := by
  unfold MatrixState.matvec
  rw [hinit]
  rw [if_neg (by simp), dif_pos hx, if_pos hy, dif_neg hN]
  rfl

theorem matvec_ok_true (M : MatrixState R) (hinit : M.initialized = true)
    (hN : M.padded_size ≠ 0) (x y : List R) (hx : x.length = M.block_size)
    (hy : y.length = M.block_size) :
    M.matvec x y true =
      letI : NeZero M.padded_size := ⟨hN⟩
      .ok (List.ofFn (matvec_full M.padded_size M.block_size M.z
        M.mat_freq_tosi (M.mat_freq_tosi_other.getD M.mat_freq_tosi)
        (fun i => x.get (Fin.cast hx.symm i)))) := by
  unfold MatrixState.matvec
  rw [hinit]
  rw [if_neg (by simp), dif_pos hx, if_pos hy, dif_neg hN]
  rfl

theorem transpose_matvec_ok_false (M : MatrixState R)
    (hinit : M.initialized = true) (hN : M.padded_size ≠ 0) (x y : List R)
    (hx : x.length = M.block_size) (hy : y.length = M.block_size) :
    M.transpose_matvec x y false =
      letI : NeZero M.padded_size := ⟨hN⟩
      .ok (List.ofFn (transpose_matvec_single M.padded_size M.block_size
        M.z (M.mat_freq_tosi_other.getD M.mat_freq_tosi)
        (fun i => x.get (Fin.cast hx.symm i)))) := by
  unfold MatrixState.transpose_matvec
  rw [hinit]
  rw [if_neg (by simp), dif_pos hx, if_pos hy, dif_neg hN]
  rfl

theorem transpose_matvec_ok_true (M : MatrixState R)
    (hinit : M.initialized = true) (hN : M.padded_size ≠ 0) (x y : List R)
    (hx : x.length = M.block_size) (hy : y.length = M.block_size) :
    M.transpose_matvec x y true =
      letI : NeZero M.padded_size := ⟨hN⟩
      .ok (List.ofFn (transpose_matvec_full M.padded_size M.block_size M.z
        M.mat_freq_tosi (M.mat_freq_tosi_other.getD M.mat_freq_tosi)
        (fun i => x.get (Fin.cast hx.symm i)))) := by
  unfold MatrixState.transpose_matvec
  rw [hinit]
  rw [if_neg (by simp), dif_pos hx, if_pos hy, dif_neg hN]
  rfl

end StateLemmas

/-- Claim C3: for every group of processes with consistent global extents and
every complex frequency-domain buffer, the forward redistribution
(column-owned to row-owned layout) followed by the corresponding backward
redistribution restores the original buffer exactly, bit-for-bit — the
operation only moves data and performs no arithmetic. -/
theorem claim3_redistribute_round_trip {α : Type} (P q : ℕ)
    (buf : Fin (P * q) → α) (buf2 : Fin (q * P) → α) :
    redistributeBackward P q (redistributeForward P q buf) = buf ∧
    redistributeForward P q (redistributeBackward P q buf2) = buf2 :=
  ⟨redistribute_round_trip P q buf, redistribute_round_trip_rev P q buf2⟩

/-- Claim C4: for every valid (non-zero) block size `b` and every unpadded
vector `v` of length `b`, unpadding the padding of `v` returns `v` exactly:
`pad` zero-fills the extension up to the padded size and `unpad` truncates it
back. -/
theorem claim4_pad_round_trip {R : Type} [Zero R] (b : ℕ) (hb : 0 < b)
    (v : Fin b → R) :
    unpad b (paddedSize b) (pad b (paddedSize b) v) = v := by
  haveI : NeZero (paddedSize b) := ⟨by unfold paddedSize; omega⟩
  exact unpad_pad b (paddedSize b) (by unfold paddedSize; omega) v

theorem claim4_witness :
    0 < 1 ∧
    unpad 1 (paddedSize 1) (pad 1 (paddedSize 1) (fun _ : Fin 1 => (1 : ℚ)))
      = (fun _ : Fin 1 => (1 : ℚ)) :=
  ⟨Nat.one_pos, claim4_pad_round_trip 1 Nat.one_pos (fun _ => (1 : ℚ))⟩

/-- Claim C5: the inverse transform's normalization factor (division by the
total transform length) is applied exactly once per forward/inverse round
trip: each `full = false` pipeline carries a single `1/N`, and the
`full = true` pipeline applies its accumulated factor `1/(N*N)` once at the
very end of the two-leg pipeline — which is proved equal to normalizing each
leg once, so no magnitude corruption occurs. -/
theorem claim5_normalization {R : Type} [Field R] (N b : ℕ) [NeZero N]
    (z : R) (hb : b ≤ N) (m mc : ZMod N → R) (x : Fin b → R) :
    (matvec_single N b z m x =
      fun j => (N : R)⁻¹ * matvec_raw N b z m x j) ∧
    (transpose_matvec_single N b z mc x =
      fun j => (N : R)⁻¹ * transpose_matvec_raw N b z mc x j) ∧
    (matvec_full N b z m mc x = fun j => ((N : R) * (N : R))⁻¹ *
      transpose_matvec_raw N b z mc (matvec_raw N b z m x) j) ∧
    (transpose_matvec_single N b z mc (matvec_single N b z m x) =
      matvec_full N b z m mc x) ∧
    (matvec_single N b z m (transpose_matvec_single N b z mc x) =
      transpose_matvec_full N b z m mc x) :=
  ⟨rfl, rfl, rfl, (matvec_full_chain N b z hb m mc x).symm,
    (transpose_matvec_full_chain N b z hb m mc x).symm⟩

theorem claim5_witness :
    1 ≤ 2 ∧
    matvec_single 2 1 (-1 : ℚ) (fun _ => 1) (fun _ => 1) =
      (fun j => ((2 : ℕ) : ℚ)⁻¹ *
        matvec_raw 2 1 (-1 : ℚ) (fun _ => 1) (fun _ => 1) j) :=
  ⟨by decide,
    (claim5_normalization 2 1 (-1 : ℚ) (by decide) (fun _ => 1) (fun _ => 1)
      (fun _ => 1)).1⟩

/-- Claim C8: `matvec` is a linear map in its input vector — applied to
`a*x1 + c*x2` it returns `a*matvec(x1) + c*matvec(x2)`, exactly in this
model's arithmetic. -/
theorem claim8_linearity {R : Type} [Field R] (N b : ℕ) [NeZero N] (z : R)
    (hb : b ≤ N) (m : ZMod N → R) (a c : R) (x1 x2 : Fin b → R) :
    matvec_single N b z m (fun i => a * x1 i + c * x2 i) =
      fun j => a * matvec_single N b z m x1 j +
        c * matvec_single N b z m x2 j := by
  funext j
  have eL := congrFun
    (matvec_raw_applyMat N b z hb m (fun i => a * x1 i + c * x2 i)) j
  have e1 := congrFun (matvec_raw_applyMat N b z hb m x1) j
  have e2 := congrFun (matvec_raw_applyMat N b z hb m x2) j
  have elin := congrFun (applyMat_linear (kernelMat N b z m) a c x1 x2) j
  show (N : R)⁻¹ * matvec_raw N b z m (fun i => a * x1 i + c * x2 i) j =
    a * ((N : R)⁻¹ * matvec_raw N b z m x1 j) +
      c * ((N : R)⁻¹ * matvec_raw N b z m x2 j)
  rw [eL, elin, e1, e2]
  ring

theorem claim8_witness :
    1 ≤ 2 ∧
    matvec_single 2 1 (-1 : ℚ) (fun _ => 1)
        (fun i => 2 * (fun _ : Fin 1 => (1 : ℚ)) i +
          3 * (fun _ : Fin 1 => (5 : ℚ)) i) =
      (fun j => 2 * matvec_single 2 1 (-1 : ℚ) (fun _ => 1)
          (fun _ : Fin 1 => (1 : ℚ)) j +
        3 * matvec_single 2 1 (-1 : ℚ) (fun _ => 1)
          (fun _ : Fin 1 => (5 : ℚ)) j) :=
  ⟨by decide, claim8_linearity 2 1 (-1 : ℚ) (by decide) (fun _ => 1) 2 3
    (fun _ => 1) (fun _ => 5)⟩

/-- Claim C6: for every initialized matrix, calling `matvec` or
`transpose_matvec` with an input or output vector whose size disagrees with
the configured block size fails with `DimensionMismatch` (no data is
produced, so nothing is silently truncated or read out of bounds). -/
theorem claim6_dimension_mismatch {R : Type} [Field R] (M : MatrixState R)
    (x y : List R) (full : Bool) (hinit : M.initialized = true)
    (hmis : x.length ≠ M.block_size ∨ y.length ≠ M.block_size) :
    M.matvec x y full = .error .DimensionMismatch ∧
    M.transpose_matvec x y full = .error .DimensionMismatch := by
  constructor
  · unfold MatrixState.matvec
    rw [hinit, if_neg (by simp)]
    rcases hmis with hx | hy
    · rw [dif_neg hx]
    · by_cases hx2 : x.length = M.block_size
      · rw [dif_pos hx2, if_neg hy]
      · rw [dif_neg hx2]
  · unfold MatrixState.transpose_matvec
    rw [hinit, if_neg (by simp)]
    rcases hmis with hx | hy
    · rw [dif_neg hx]
    · by_cases hx2 : x.length = M.block_size
      · rw [dif_pos hx2, if_neg hy]
      · rw [dif_neg hx2]

theorem claim6_witness :
    sampleMatrix.initialized = true ∧
    (([] : List ℂ).length ≠ sampleMatrix.block_size ∨
      [(0 : ℂ)].length ≠ sampleMatrix.block_size) ∧
    sampleMatrix.matvec [] [0] false = .error .DimensionMismatch ∧
    sampleMatrix.transpose_matvec [] [0] false =
      .error .DimensionMismatch := by
  have h := claim6_dimension_mismatch sampleMatrix [] [(0 : ℂ)] false rfl
    (Or.inl (by decide))
  exact ⟨rfl, Or.inl (by decide), h.1, h.2⟩

/-- Claim C7: `initialized` becomes true only when all working buffers are
allocated and all four transform plans are built (so every observably
constructed matrix is fully initialized, and construction failures leave
nothing observable), and every method other than construction invoked while
`initialized` is false fails fast with `NotInitialized`. -/
theorem claim7_initialization_guard {R : Type} [Field R] :
    (∀ M : MatrixState R, MatrixState.Reachable M →
      M.initialized = true ∧ M.forward_plan_built = true ∧
      M.inverse_plan_built = true ∧ M.forward_plan_conj_built = true ∧
      M.inverse_plan_conj_built = true ∧ M.buffers_allocated = true) ∧
    (∀ (z : R) (cols rows bs : ℕ) (g : Bool) (M : MatrixState R),
      MatrixState.construct z cols rows bs g = .ok M →
      M.initialized = true ∧ M.forward_plan_built = true ∧
      M.inverse_plan_built = true ∧ M.forward_plan_conj_built = true ∧
      M.inverse_plan_conj_built = true ∧ M.buffers_allocated = true) ∧
    (∀ M : MatrixState R, M.initialized = false →
      (∀ (x y : List R) (full : Bool),
        M.matvec x y full = .error .NotInitialized ∧
        M.transpose_matvec x y full = .error .NotInitialized) ∧
      M.init_mat_ones = .error .NotInitialized ∧
      (∀ (c : ZMod M.padded_size → R)
        (o : Option (ZMod M.padded_size → R)),
        M.init_mat_from_file c o = .error .NotInitialized)) := by
  refine ⟨?_, ?_, ?_⟩
  · intro M h
    obtain ⟨h1, h2, h3, h4, h5, h6, _⟩ := reachable_invariant M h
    exact ⟨h1, h2, h3, h4, h5, h6⟩
  · intro z cols rows bs g M hok
    obtain ⟨h1, h2, h3, h4, h5, h6, _⟩ := reachable_invariant M
      (MatrixState.Reachable.construct z cols rows bs g M hok)
    exact ⟨h1, h2, h3, h4, h5, h6⟩
  · intro M h
    refine ⟨fun x y full => ⟨?_, ?_⟩, ?_, fun c o => ?_⟩
    · unfold MatrixState.matvec
      rw [h, if_pos rfl]
    · unfold MatrixState.transpose_matvec
      rw [h, if_pos rfl]
    · unfold MatrixState.init_mat_ones
      rw [h, if_neg (by simp)]
    · unfold MatrixState.init_mat_from_file
      rw [h, if_neg (by simp)]

theorem claim7_witness :
    sampleUninit.initialized = false ∧
    sampleUninit.matvec [] [] false = .error .NotInitialized ∧
    sampleUninit.transpose_matvec [] [] false = .error .NotInitialized ∧
    sampleUninit.init_mat_ones = .error .NotInitialized := by
  have h := (claim7_initialization_guard (R := ℂ)).2.2 sampleUninit rfl
  exact ⟨rfl, (h.1 [] [] false).1, (h.1 [] [] false).2, h.2.1⟩

/-- Claim C9: for every successfully constructed matrix,
`padded_size >= block_size` holds, the padded size is at least double the
unpadded block size (the documented no-aliasing rule for transform-domain
convolution), and this relation is established at construction and unchanged
by every subsequent operation. -/
theorem claim9_padding_invariant {R : Type} [Field R] :
    (∀ M : MatrixState R, MatrixState.Reachable M →
      M.get_block_size ≤ M.get_padded_size ∧
      2 * M.get_block_size ≤ M.get_padded_size ∧
      0 < M.get_block_size ∧
      M.get_padded_size = paddedSize M.get_block_size) ∧
    (∀ M M2 : MatrixState R, M.init_mat_ones = .ok M2 →
      M2.padded_size = M.padded_size ∧ M2.block_size = M.block_size) ∧
    (∀ (M : MatrixState R) (c : ZMod M.padded_size → R)
      (o : Option (ZMod M.padded_size → R)) (M2 : MatrixState R),
      M.init_mat_from_file c o = .ok M2 →
      M2.padded_size = M.padded_size ∧ M2.block_size = M.block_size) := by
  refine ⟨?_, ?_, ?_⟩
  · intro M h
    obtain ⟨_, _, _, _, _, _, hpos, hps, _⟩ := reachable_invariant M h
    have h2 : M.padded_size = 2 * M.block_size := hps
    exact ⟨by show M.block_size ≤ M.padded_size; omega,
      by show 2 * M.block_size ≤ M.padded_size; omega, hpos, hps⟩
  · intro M M2 hok
    unfold MatrixState.init_mat_ones at hok
    split at hok
    · injection hok with h2
      subst h2
      exact ⟨rfl, rfl⟩
    · exact Except.noConfusion hok
  · intro M c o M2 hok
    unfold MatrixState.init_mat_from_file at hok
    split at hok
    · injection hok with h2
      subst h2
      exact ⟨rfl, rfl⟩
    · exact Except.noConfusion hok

theorem claim9_witness :
    MatrixState.Reachable sampleMatrix ∧
    sampleMatrix.get_block_size ≤ sampleMatrix.get_padded_size ∧
    2 * sampleMatrix.get_block_size ≤ sampleMatrix.get_padded_size := by
  have hreach : MatrixState.Reachable sampleMatrix :=
    MatrixState.Reachable.ones sampleConstructed sampleMatrix
      (MatrixState.Reachable.construct (-1 : ℂ) 1 1 1 false sampleConstructed
        rfl) rfl
  have h := (claim9_padding_invariant (R := ℂ)).1 sampleMatrix hreach
  exact ⟨hreach, h.1, h.2.1⟩

/-- Claim C10: in every reachable state, `has_mat_freq_tosi_other` is true
exactly when the second coefficient buffer `mat_freq_tosi_other` is present,
and both default to absent (null and false) at construction — so the getter
pair reports the presence of the buffer accurately. -/
theorem claim10_other_buffer_flag {R : Type} [Field R] :
    (∀ M : MatrixState R, MatrixState.Reachable M →
      M.get_has_mat_freq_tosi_other = M.get_mat_freq_tosi_other.isSome) ∧
    (∀ (z : R) (cols rows bs : ℕ) (g : Bool) (M : MatrixState R),
      MatrixState.construct z cols rows bs g = .ok M →
      M.mat_freq_tosi_other = none ∧ M.has_mat_freq_tosi_other = false) := by
  constructor
  · intro M h
    exact (reachable_invariant M h).2.2.2.2.2.2.2.2
  · intro z cols rows bs g M hok
    unfold MatrixState.construct at hok
    split at hok
    · exact Except.noConfusion hok
    · injection hok with h2
      subst h2
      exact ⟨rfl, rfl⟩

/-- Claim C1: for every initialized matrix representing the structured
operator `A = opMatrix` (whose adjoint coefficients are held, per the spec,
in the alternate buffer — or in `mat_freq_tosi` itself for a symmetric
operator) and every correctly sized input and output vector, `matvec`
computes `y = A x` when `full` is false and `y = A* A x` when `full` is
true; likewise `transpose_matvec` computes `y = A* x`, or `y = A A* x` when
`full` is true. -/
theorem claim1_operator_correctness {R : Type} [Field R] [StarRing R]
    (M : MatrixState R) (hinit : M.initialized = true)
    (hN : M.padded_size ≠ 0) (hb : M.block_size ≤ M.padded_size)
    (hz : M.z ^ M.padded_size = 1) (hsz : star M.z * M.z = 1)
    (hmc : M.mat_freq_tosi_other.getD M.mat_freq_tosi =
      fun g => star (M.mat_freq_tosi (-g)))
    (x y : List R) (hx : x.length = M.block_size)
    (hy : y.length = M.block_size) :
    letI : NeZero M.padded_size := ⟨hN⟩
    (M.matvec x y false = .ok (List.ofFn (applyMat
        (opMatrix M.padded_size M.block_size M.z M.mat_freq_tosi)
        (fun i => x.get (Fin.cast hx.symm i)))) ∧
      M.transpose_matvec x y false = .ok (List.ofFn (applyMat
        (conjTransposeMat
          (opMatrix M.padded_size M.block_size M.z M.mat_freq_tosi))
        (fun i => x.get (Fin.cast hx.symm i)))) ∧
      M.matvec x y true = .ok (List.ofFn (applyMat
        (matMul
          (conjTransposeMat
            (opMatrix M.padded_size M.block_size M.z M.mat_freq_tosi))
          (opMatrix M.padded_size M.block_size M.z M.mat_freq_tosi))
        (fun i => x.get (Fin.cast hx.symm i)))) ∧
      M.transpose_matvec x y true = .ok (List.ofFn (applyMat
        (matMul
          (opMatrix M.padded_size M.block_size M.z M.mat_freq_tosi)
          (conjTransposeMat
            (opMatrix M.padded_size M.block_size M.z M.mat_freq_tosi)))
        (fun i => x.get (Fin.cast hx.symm i))))) := by
  letI : NeZero M.padded_size := ⟨hN⟩
  have hmc2 : ∀ g, (M.mat_freq_tosi_other.getD M.mat_freq_tosi) g =
      star (M.mat_freq_tosi (-g)) := fun g => congrFun hmc g
  refine ⟨?_, ?_, ?_, ?_⟩
  · rw [matvec_ok_false M hinit hN x y hx hy]
    exact congrArg Except.ok (congrArg List.ofFn
      (matvec_single_applyMat M.padded_size M.block_size M.z hz hb
        M.mat_freq_tosi (fun i => x.get (Fin.cast hx.symm i))))
  · rw [transpose_matvec_ok_false M hinit hN x y hx hy]
    exact congrArg Except.ok (congrArg List.ofFn
      (transpose_matvec_single_applyMat M.padded_size M.block_size M.z hz hsz
        hb M.mat_freq_tosi (M.mat_freq_tosi_other.getD M.mat_freq_tosi) hmc2
        (fun i => x.get (Fin.cast hx.symm i))))
  · rw [matvec_ok_true M hinit hN x y hx hy]
    apply congrArg Except.ok
    apply congrArg List.ofFn
    rw [matvec_full_chain M.padded_size M.block_size M.z hb,
      matvec_single_applyMat M.padded_size M.block_size M.z hz hb,
      transpose_matvec_single_applyMat M.padded_size M.block_size M.z hz hsz
        hb M.mat_freq_tosi (M.mat_freq_tosi_other.getD M.mat_freq_tosi) hmc2,
      applyMat_comp]
  · rw [transpose_matvec_ok_true M hinit hN x y hx hy]
    apply congrArg Except.ok
    apply congrArg List.ofFn
    rw [transpose_matvec_full_chain M.padded_size M.block_size M.z hb,
      transpose_matvec_single_applyMat M.padded_size M.block_size M.z hz hsz
        hb M.mat_freq_tosi (M.mat_freq_tosi_other.getD M.mat_freq_tosi) hmc2,
      matvec_single_applyMat M.padded_size M.block_size M.z hz hb,
      applyMat_comp]

theorem claim1_witness :
    sampleMatrix.initialized = true ∧
    sampleMatrix.padded_size ≠ 0 ∧
    sampleMatrix.block_size ≤ sampleMatrix.padded_size ∧
    sampleMatrix.z ^ sampleMatrix.padded_size = 1 ∧
    star sampleMatrix.z * sampleMatrix.z = 1 ∧
    (sampleMatrix.mat_freq_tosi_other.getD sampleMatrix.mat_freq_tosi =
      fun g => star (sampleMatrix.mat_freq_tosi (-g))) ∧
    sampleMatrix.matvec [1] [0] false = .ok (List.ofFn (applyMat
      (opMatrix 2 1 (-1 : ℂ) (fun _ => 1))
      (fun i => [(1 : ℂ)].get (Fin.cast rfl i)))) := by
  have h1 : sampleMatrix.z ^ sampleMatrix.padded_size = 1 := by
    show (-1 : ℂ) ^ 2 = 1
    exact neg_one_sq
  have h2 : star sampleMatrix.z * sampleMatrix.z = 1 := by
    show star (-1 : ℂ) * (-1) = 1
    simp
  have h3 : sampleMatrix.mat_freq_tosi_other.getD sampleMatrix.mat_freq_tosi =
      fun g => star (sampleMatrix.mat_freq_tosi (-g)) := by
    funext g
    show (1 : ℂ) = star (1 : ℂ)
    simp
  have happ := claim1_operator_correctness sampleMatrix rfl (by decide)
    (by decide) h1 h2 h3 [1] [0] rfl rfl
  exact ⟨rfl, by decide, by decide, h1, h2, h3, happ.1⟩

/-- Claim C2: for every initialized matrix and correctly sized vectors, the
result of `matvec` with `full = true` equals the result of first computing
`matvec` with `full = false` and then feeding its output to
`transpose_matvec` with `full = false`; symmetrically for `transpose_matvec`
with `full = true`. -/
theorem claim2_full_equals_chain {R : Type} [Field R] (M : MatrixState R)
    (hinit : M.initialized = true) (hN : M.padded_size ≠ 0)
    (hb : M.block_size ≤ M.padded_size) (x y : List R)
    (hx : x.length = M.block_size) (hy : y.length = M.block_size) :
    M.matvec x y true =
      (M.matvec x y false).bind (fun w => M.transpose_matvec w y false) ∧
    M.transpose_matvec x y true =
      (M.transpose_matvec x y false).bind (fun w => M.matvec w y false) := by
  letI : NeZero M.padded_size := ⟨hN⟩
  constructor
  · rw [matvec_ok_true M hinit hN x y hx hy,
      matvec_ok_false M hinit hN x y hx hy]
    have hbind : (Except.ok (List.ofFn (matvec_single M.padded_size
          M.block_size M.z M.mat_freq_tosi
          (fun i => x.get (Fin.cast hx.symm i))))).bind
          (fun w => M.transpose_matvec w y false) =
        M.transpose_matvec (List.ofFn (matvec_single M.padded_size
          M.block_size M.z M.mat_freq_tosi
          (fun i => x.get (Fin.cast hx.symm i)))) y false := rfl
    rw [hbind]
    have hlen : (List.ofFn (matvec_single M.padded_size M.block_size M.z
        M.mat_freq_tosi (fun i => x.get (Fin.cast hx.symm i)))).length =
        M.block_size := by
      rw [List.length_ofFn]
    rw [transpose_matvec_ok_false M hinit hN _ y hlen hy]
    apply congrArg Except.ok
    apply congrArg List.ofFn
    rw [matvec_full_chain M.padded_size M.block_size M.z hb]
    have hXY : (fun i => (List.ofFn (matvec_single M.padded_size M.block_size
        M.z M.mat_freq_tosi (fun i2 => x.get (Fin.cast hx.symm i2)))).get
          (Fin.cast hlen.symm i)) =
        matvec_single M.padded_size M.block_size M.z M.mat_freq_tosi
          (fun i2 => x.get (Fin.cast hx.symm i2)) := by
      funext i
      rw [List.get_ofFn]
      exact congrArg _ (Fin.ext rfl)
    rw [hXY]
  · rw [transpose_matvec_ok_true M hinit hN x y hx hy,
      transpose_matvec_ok_false M hinit hN x y hx hy]
    have hbind : (Except.ok (List.ofFn (transpose_matvec_single M.padded_size
          M.block_size M.z
          (M.mat_freq_tosi_other.getD M.mat_freq_tosi)
          (fun i => x.get (Fin.cast hx.symm i))))).bind
          (fun w => M.matvec w y false) =
        M.matvec (List.ofFn (transpose_matvec_single M.padded_size
          M.block_size M.z (M.mat_freq_tosi_other.getD M.mat_freq_tosi)
          (fun i => x.get (Fin.cast hx.symm i)))) y false := rfl
    rw [hbind]
    have hlen : (List.ofFn (transpose_matvec_single M.padded_size
        M.block_size M.z (M.mat_freq_tosi_other.getD M.mat_freq_tosi)
        (fun i => x.get (Fin.cast hx.symm i)))).length = M.block_size := by
      rw [List.length_ofFn]
    rw [matvec_ok_false M hinit hN _ y hlen hy]
    apply congrArg Except.ok
    apply congrArg List.ofFn
    rw [transpose_matvec_full_chain M.padded_size M.block_size M.z hb]
    have hXY : (fun i => (List.ofFn (transpose_matvec_single M.padded_size
        M.block_size M.z (M.mat_freq_tosi_other.getD M.mat_freq_tosi)
        (fun i2 => x.get (Fin.cast hx.symm i2)))).get
          (Fin.cast hlen.symm i)) =
        transpose_matvec_single M.padded_size M.block_size M.z
          (M.mat_freq_tosi_other.getD M.mat_freq_tosi)
          (fun i2 => x.get (Fin.cast hx.symm i2)) := by
      funext i
      rw [List.get_ofFn]
      exact congrArg _ (Fin.ext rfl)
    rw [hXY]

theorem claim2_witness :
    sampleMatrix.initialized = true ∧
    sampleMatrix.padded_size ≠ 0 ∧
    sampleMatrix.block_size ≤ sampleMatrix.padded_size ∧
    sampleMatrix.matvec [1] [0] true =
      (sampleMatrix.matvec [1] [0] false).bind
        (fun w => sampleMatrix.transpose_matvec w [0] false) :=
  ⟨rfl, by decide, by decide,
    (claim2_full_equals_chain sampleMatrix rfl (by decide) (by decide)
      [1] [0] rfl rfl).1⟩

theorem claim10_witness :
    MatrixState.Reachable sampleMatrix ∧
    sampleMatrix.get_has_mat_freq_tosi_other =
      sampleMatrix.get_mat_freq_tosi_other.isSome := by
  have hreach : MatrixState.Reachable sampleMatrix :=
    MatrixState.Reachable.ones sampleConstructed sampleMatrix
      (MatrixState.Reachable.construct (-1 : ℂ) 1 1 1 false sampleConstructed
        rfl) rfl
  exact ⟨hreach, (claim10_other_buffer_flag (R := ℂ)).1 sampleMatrix hreach⟩

end Matvec
